import Mathlib

/-!
# Fifteen game: the puzzle engine of `src/js/game.js`

A shallow embedding of the `game` object (fields `order`, `hole`, `moveCounter`
and the functions `solvable`, `isFinished`, `swap`, `move`, `initialize`) and of
the helper `getInversionCount`, followed by theorems about them.

Conventions of the embedding:

* a JavaScript array of non-negative integers is a `List Nat`; reading
  `array[i]` outside the array gives `undefined`, which is `none` here;
* `hole` and the step of a move are integers (`Int`), since `hole + step` can
  leave the board on either side;
* the DOM work of `initialize` (layout, binding, timer, key listener) does not
  touch `order`, `hole` or `moveCounter` and is left out.
-/

namespace FifteenGame

/-! ## Data model -/

/-- The mutable fields of the `game` object that the puzzle logic reads and writes. -/
structure State where
  order : List Nat
  hole : Int
  moveCounter : Nat
  deriving DecidableEq

/-- Constant `AMOUNT_OF_TILES`. -/
def AMOUNT_OF_TILES : Nat := 16

/-- Constant `BUTTON_DOWN`. -/
def BUTTON_DOWN : Nat := 40

/-- Constant `BUTTON_UP`. -/
def BUTTON_UP : Nat := 38

/-- Constant `BUTTON_LEFT`. -/
def BUTTON_LEFT : Nat := 37

/-- Constant `BUTTON_RIGHT`. -/
def BUTTON_RIGHT : Nat := 39

/-- Entry `game.moves.up`. -/
def moves_up : Int := -4

/-- Entry `game.moves.left`. -/
def moves_left : Int := -1

/-- Entry `game.moves.down`. -/
def moves_down : Int := 4

/-- Entry `game.moves.right`. -/
def moves_right : Int := 1

/-- The four index offsets of `game.moves`. -/
def isStep (step : Int) : Prop :=
  step = moves_up ∨ step = moves_left ∨ step = moves_down ∨ step = moves_right

instance (step : Int) : Decidable (isStep step) := by
  unfold isStep; infer_instance

/-- The read `array[index]` of JavaScript for an integer index: `none` stands for
`undefined`, the result outside `0 .. array.length - 1`. -/
def jsGet (array : List Nat) (index : Int) : Option Nat :=
  if 0 ≤ index then array[index.toNat]? else none

/-- JavaScript truthiness of the result of an array read: `undefined` and `0`
are falsy, every other number is truthy. -/
def truthy : Option Nat → Bool
  | none => false
  | some v => v != 0

/-- The field initialiser `order: [1, ..., 15].sort(() => Math.random() - .5).concat(0)`:
`shuffled` is the outcome of the random sort, a rearrangement of `1..15`. -/
def initialOrder (shuffled : List Nat) : List Nat :=
  shuffled ++ [0]

/-- The `game` object as the script creates it: `moveCounter: 0`, the shuffled
`order`, `hole: 15`. -/
def initialState (shuffled : List Nat) : State :=
  { order := initialOrder shuffled, hole := 15, moveCounter := 0 }

/-- The array literal that is shuffled at start-up. -/
def tiles : List Nat := [1, 2, 3, 4, 5, 6, 7, 8, 9, 10, 11, 12, 13, 14, 15]

/-! ## Operations -/

/-- The test of the inner loop body of `getInversionCount`:
`array[i] && array[j] && array[i] > array[j]`. Both reads are inside the array. -/
def isInversion (array : List Nat) (i j : Nat) : Bool :=
  truthy array[i]? && truthy array[j]? && decide (array.getD i 0 > array.getD j 0)

/-- Function `getInversionCount(array)`: the outer loop runs `i` over
`0 .. array.length - 2`, the inner loop runs `j` over `i + 1 .. array.length - 1`,
and `invCount` is incremented where the test holds. For the empty array the
bound `array.length - 1` is `-1` in JavaScript and `0` here; the outer loop runs
no iteration either way. -/
def getInversionCount (array : List Nat) : Nat :=
  (List.range (array.length - 1)).foldl
    (fun invCount i =>
      (List.range' (i + 1) (array.length - (i + 1))).foldl
        (fun invCount j => if isInversion array i j then invCount + 1 else invCount)
        invCount)
    0

/-- Function `game.solvable(array)`: `!(invCount % 2)`. -/
def solvable (array : List Nat) : Bool :=
  !(getInversionCount array % 2 != 0)

/-- The callback of `isFinished`: `item > 0 && item - 1 !== i`. The subtraction
is only evaluated for `item > 0`. -/
def misplaced (item i : Nat) : Bool :=
  decide (item > 0) && decide (item - 1 ≠ i)

/-- Function `game.isFinished()`: `!this.order.some((item, i) => ...)`. -/
def isFinished (s : State) : Bool :=
  !(s.order.enum.any (fun p => misplaced p.2 p.1))

/-- Function `game.swap(tile1, tile2)` on the `order` array, statement by
statement. Both indices are inside the array at every call this development
reasons about (`swap(0, 1)` on the sixteen-element board, and
`swap(index, hole)` after `order[index]` was read as a tile, with `hole` on the
board); outside the array JavaScript would store `undefined` and grow the
array, which a `List Nat` does not represent. -/
def swap (order : List Nat) (tile1 tile2 : Nat) : List Nat :=
  let temp := order.getD tile1 0
  let order1 := order.set tile1 (order.getD tile2 0)
  order1.set tile2 temp

/-- The expression `Math.floor(x / 4)` for an integer `x`: integer division by
the positive literal `4` rounds towards minus infinity. -/
def floorDiv4 (x : Int) : Int := x / 4

/-- Function `game.move(step)`: the returned boolean and the state after the call. -/
def move (s : State) (step : Int) : Bool × State :=
  let index := s.hole + step
  if !truthy (jsGet s.order index) then
    (false, s)
  else if (step = moves_left ∨ step = moves_right) ∧ floorDiv4 s.hole ≠ floorDiv4 index then
    (false, s)
  else
    (true, { order := swap s.order index.toNat s.hole.toNat,
             hole := index,
             moveCounter := s.moveCounter + 1 })

/-- The part of `game.initialize()` that acts on the puzzle state:
`if (!game.solvable(game.order)) { game.swap(0, 1); }`. -/
def initializeGame (s : State) : State :=
  if !solvable s.order then { s with order := swap s.order 0 1 } else s

/-- The state after a sequence of `move` calls, one per element of `steps`. -/
def runMoves (s : State) (steps : List Int) : State :=
  steps.foldl (fun st step => (move st step).2) s

/-- Function `gameMove(keyCode)`: the `switch` on the key code, as the state
after the call (the boolean returned by `move` is dropped by the source). The
`default` branch only writes to the console. -/
def gameMove (s : State) (keyCode : Nat) : State :=
  if keyCode = BUTTON_LEFT then (move s moves_right).2
  else if keyCode = BUTTON_UP then (move s moves_down).2
  else if keyCode = BUTTON_RIGHT then (move s moves_left).2
  else if keyCode = BUTTON_DOWN then (move s moves_up).2
  else s

/-- The solved board `[1, 2, ..., 15, 0]`. -/
def solvedOrder : List Nat := tiles ++ [0]

/-- The solved state: solved board, `hole = 15`, `moveCounter = 0`. -/
def solvedState : State := { order := solvedOrder, hole := 15, moveCounter := 0 }

/-! ## Specification-side notions -/

/-- The number of later entries `b` of `rest` that form an inversion with an
earlier entry `a`: both non-zero and `a > b`. -/
def inversionsWith (a : Nat) (rest : List Nat) : Nat :=
  rest.countP (fun b => a != 0 && b != 0 && decide (a > b))

/-- The inversion count in the words of the specification: the number of index
pairs `(i, j)` with `i < j`, `array[i] ≠ 0`, `array[j] ≠ 0` and
`array[i] > array[j]`. -/
def inversionPairs (array : List Nat) : Nat :=
  ((Finset.range array.length ×ˢ Finset.range array.length).filter
    (fun p => p.1 < p.2 ∧ array.getD p.1 0 ≠ 0 ∧ array.getD p.2 0 ≠ 0
      ∧ array.getD p.1 0 > array.getD p.2 0)).card

/-- Well-formed puzzle state: `order` is a permutation of `0..15` and
`order[hole]` is the empty value `0`. -/
def WellFormed (s : State) : Prop :=
  s.order.Perm (List.range 16) ∧ jsGet s.order s.hole = some 0

instance (s : State) : Decidable (WellFormed s) := by
  unfold WellFormed; infer_instance

/-- The number of calls that return true when `move` is called once per element
of `steps`, in order, starting from the state `s`. -/
def acceptedMoves : State → List Int → Nat
  | _, [] => 0
  | s, step :: rest =>
    (if (move s step).1 = true then 1 else 0) + acceptedMoves (move s step).2 rest

/-- The contribution of an ordered pair of values to the inversion count: `1` when
both are non-zero and the earlier one `a` is greater than the later one `b`. -/
def inversionPair (a b : Nat) : Nat :=
  if a ≠ 0 ∧ b ≠ 0 ∧ a > b then 1 else 0

/-- The quantity `getInversionCount(order) + floor(hole / 4)`: the inversion count
plus the row of the empty cell. -/
def inversionRowSum (s : State) : Int :=
  (getInversionCount s.order : Int) + floorDiv4 s.hole

/-! ## Loops of `getInversionCount` as sums -/

theorem foldl_cond_succ (p : Nat → Bool) (l : List Nat) (init : Nat) :
    l.foldl (fun c j => if p j then c + 1 else c) init = init + l.countP p := by
  induction l generalizing init with
  | nil => simp
  | cons x xs ih =>
    simp only [List.foldl_cons, List.countP_cons, ih]
    split <;> omega

theorem foldl_add_eq_sum (f : Nat → Nat) (l : List Nat) (init : Nat) :
    l.foldl (fun c i => c + f i) init = init + (l.map f).sum := by
  induction l generalizing init with
  | nil => simp
  | cons x xs ih =>
    simp only [List.foldl_cons, List.map_cons, List.sum_cons, ih]
    omega

theorem getInversionCount_eq_sum (array : List Nat) :
    getInversionCount array =
      ((List.range (array.length - 1)).map
        (fun i => (List.range' (i + 1) (array.length - (i + 1))).countP
          (isInversion array i))).sum := by
  unfold getInversionCount
  simp only [foldl_cond_succ]
  rw [foldl_add_eq_sum]
  simp

theorem map_getD_range (l : List Nat) :
    (List.range l.length).map (fun j => l.getD j 0) = l := by
  induction l with
  | nil => simp
  | cons x xs ih =>
    rw [List.length_cons, List.range_succ_eq_map, List.map_cons, List.map_map]
    simp only [List.getD_cons_zero]
    exact congrArg (List.cons x) ih

theorem isInversion_cons_succ (a : Nat) (rest : List Nat) (i j : Nat) :
    isInversion (a :: rest) (i + 1) (j + 1) = isInversion rest i j := by
  simp [isInversion]

theorem isInversion_cons_zero (a : Nat) (rest : List Nat) (j : Nat) (hj : j < rest.length) :
    isInversion (a :: rest) 0 (j + 1)
      = (a != 0 && rest.getD j 0 != 0 && decide (a > rest.getD j 0)) := by
  simp [isInversion, truthy, List.getElem?_eq_getElem hj, List.getD_eq_getElem _ _ hj]

theorem getInversionCount_cons (a : Nat) (rest : List Nat) :
    getInversionCount (a :: rest) = inversionsWith a rest + getInversionCount rest := by
  cases rest with
  | nil => simp [getInversionCount, inversionsWith]
  | cons b tl =>
    rw [getInversionCount_eq_sum, getInversionCount_eq_sum]
    simp only [List.length_cons, Nat.add_sub_cancel]
    rw [List.range_succ_eq_map, List.map_cons, List.sum_cons, List.map_map]
    congr 1
    · -- the first outer iteration compares `a` with every later entry
      have h1 : List.range' (0 + 1) (tl.length + 1 + 1 - (0 + 1))
          = (List.range (b :: tl).length).map Nat.succ := by
        rw [List.range'_eq_map_range]
        simp only [List.length_cons]
        rw [show tl.length + 1 + 1 - (0 + 1) = tl.length + 1 by omega]
        apply List.map_congr_left
        intro j _
        omega
      rw [h1, List.countP_map, inversionsWith]
      conv_rhs => rw [← map_getD_range (b :: tl), List.countP_map]
      apply List.countP_congr
      intro j hj
      have hj2 : j < (b :: tl).length := List.mem_range.mp hj
      simp only [Function.comp, Nat.succ_eq_add_one]
      rw [isInversion_cons_zero a (b :: tl) j hj2]
    · -- the remaining outer iterations are those of the tail, shifted by one
      congr 1
      apply List.map_congr_left
      intro i _
      simp only [Function.comp, Nat.succ_eq_add_one]
      have h2 : List.range' (i + 1 + 1) (tl.length + 1 + 1 - (i + 1 + 1))
          = (List.range' (i + 1) (tl.length + 1 - (i + 1))).map Nat.succ := by
        rw [show tl.length + 1 + 1 - (i + 1 + 1) = tl.length + 1 - (i + 1) by omega]
        rw [List.range'_eq_map_range, List.range'_eq_map_range, List.map_map]
        apply List.map_congr_left
        intro j _
        simp only [Function.comp, Nat.succ_eq_add_one]
        omega
      rw [h2, List.countP_map]
      apply List.countP_congr
      intro j _
      simp only [Function.comp, Nat.succ_eq_add_one]
      rw [isInversion_cons_succ]

theorem isInversion_iff (array : List Nat) (i j : Nat)
    (hi : i < array.length) (hj : j < array.length) :
    isInversion array i j = true
      ↔ array.getD i 0 ≠ 0 ∧ array.getD j 0 ≠ 0 ∧ array.getD i 0 > array.getD j 0 := by
  simp [isInversion, truthy, List.getElem?_eq_getElem hi, List.getElem?_eq_getElem hj,
    List.getD_eq_getElem _ _ hi, List.getD_eq_getElem _ _ hj, and_assoc]

theorem sum_map_range (f : Nat → Nat) (n : Nat) :
    ((List.range n).map f).sum = ∑ i in Finset.range n, f i := by
  induction n with
  | zero => simp
  | succ n ih => simp [List.range_succ, Finset.sum_range_succ, ih]

theorem countP_range (p : Nat → Bool) (n : Nat) :
    (List.range n).countP p = ((Finset.range n).filter (fun j => p j = true)).card := by
  induction n with
  | zero => simp
  | succ n ih =>
    rw [List.range_succ, List.countP_append, ih, Finset.range_succ, Finset.filter_insert]
    by_cases h : p n = true
    · simp [h, Finset.card_insert_of_not_mem]
    · simp [h]

theorem countP_range'_tail (p : Nat → Bool) (i n : Nat) (h : i + 1 ≤ n) :
    (List.range' (i + 1) (n - (i + 1))).countP p
      = ((Finset.range n).filter (fun j => i < j ∧ p j = true)).card := by
  have hsplit : List.range n = List.range (i + 1) ++ List.range' (i + 1) (n - (i + 1)) := by
    have happ := List.range'_append_1 0 (i + 1) (n - (i + 1))
    rw [show n - (i + 1) + (i + 1) = n by omega, Nat.zero_add] at happ
    rw [List.range_eq_range', List.range_eq_range', happ]
  have hzero : (List.range (i + 1)).countP (fun j => decide (i < j) && p j) = 0 := by
    rw [List.countP_eq_zero]
    intro j hj
    have := List.mem_range.mp hj
    simp
    intro h2
    omega
  have htail : (List.range' (i + 1) (n - (i + 1))).countP (fun j => decide (i < j) && p j)
      = (List.range' (i + 1) (n - (i + 1))).countP p := by
    apply List.countP_congr
    intro j hj
    have := (List.mem_range'_1.mp hj).1
    simp
    intro _
    omega
  have := countP_range (fun j => decide (i < j) && p j) n
  rw [hsplit, List.countP_append, hzero, htail, Nat.zero_add] at this
  rw [this]
  congr 1
  ext j
  simp

theorem getInversionCount_eq_inversionPairs (array : List Nat) :
    getInversionCount array = inversionPairs array := by
  rw [getInversionCount_eq_sum, sum_map_range, inversionPairs, Finset.card_filter,
    Finset.sum_product]
  have hlast : ∀ n : Nat, ∀ g : Nat → Nat, (∀ i, n ≤ i + 1 → g i = 0) →
      ∑ i in Finset.range (n - 1), g i = ∑ i in Finset.range n, g i := by
    intro n g hg
    cases n with
    | zero => simp
    | succ m => rw [Nat.add_sub_cancel, Finset.sum_range_succ, hg m (by omega), Nat.add_zero]
  rw [← hlast array.length]
  · apply Finset.sum_congr rfl
    intro i hi
    have hi2 : i + 1 < array.length := by
      have := Finset.mem_range.mp hi
      omega
    rw [countP_range'_tail _ _ _ (by omega), Finset.card_filter]
    apply Finset.sum_congr rfl
    intro j hj
    have hj2 := Finset.mem_range.mp hj
    by_cases hlt : i < j
    · simp only [hlt, true_and]
      by_cases hinv : isInversion array i j = true
      · rw [if_pos hinv, if_pos ((isInversion_iff array i j (by omega) hj2).mp hinv)]
      · rw [if_neg hinv, if_neg (fun h => hinv ((isInversion_iff array i j (by omega) hj2).mpr h))]
    · simp [hlt]
  · intro i hi
    apply Finset.sum_eq_zero
    intro j hj
    have hj2 := Finset.mem_range.mp hj
    rw [if_neg]
    intro h
    omega

theorem solvable_iff_even (array : List Nat) :
    solvable array = true ↔ Even (getInversionCount array) := by
  simp [solvable, Nat.even_iff]

/-! ## The corrective swap of `initialize` -/

theorem swap_zero_one (a b : Nat) (rest : List Nat) :
    swap (a :: b :: rest) 0 1 = b :: a :: rest := by
  simp [swap]

theorem inversionsWith_cons (a b : Nat) (rest : List Nat) :
    inversionsWith a (b :: rest)
      = inversionsWith a rest + (if a ≠ 0 ∧ b ≠ 0 ∧ a > b then 1 else 0) := by
  unfold inversionsWith
  rw [List.countP_cons]
  congr 1
  by_cases h : a ≠ 0 ∧ b ≠ 0 ∧ a > b
  · rw [if_pos h, if_pos]
    simpa [and_assoc] using h
  · rw [if_neg h, if_neg]
    simpa [and_assoc] using h

theorem getInversionCount_swap_front (a b : Nat) (rest : List Nat)
    (ha : a ≠ 0) (hb : b ≠ 0) (hab : a ≠ b) :
    getInversionCount (b :: a :: rest) = getInversionCount (a :: b :: rest) + 1
      ∨ getInversionCount (b :: a :: rest) + 1 = getInversionCount (a :: b :: rest) := by
  simp only [getInversionCount_cons, inversionsWith_cons]
  rcases Nat.lt_or_gt_of_ne hab with h | h
  · left
    have h1 : b ≠ 0 ∧ a ≠ 0 ∧ b > a := ⟨hb, ha, h⟩
    have h2 : ¬(a ≠ 0 ∧ b ≠ 0 ∧ a > b) := by omega
    rw [if_pos h1, if_neg h2]
    omega
  · right
    have h1 : a ≠ 0 ∧ b ≠ 0 ∧ a > b := ⟨ha, hb, h⟩
    have h2 : ¬(b ≠ 0 ∧ a ≠ 0 ∧ b > a) := by omega
    rw [if_pos h1, if_neg h2]
    omega

theorem getInversionCount_swap_front_zero (a b : Nat) (rest : List Nat)
    (h : a = 0 ∨ b = 0) :
    getInversionCount (b :: a :: rest) = getInversionCount (a :: b :: rest) := by
  simp only [getInversionCount_cons, inversionsWith_cons]
  rw [if_neg (by omega), if_neg (by omega)]
  omega

theorem solvable_initializeGame_front (s : State) (a b : Nat) (rest : List Nat)
    (hs : s.order = a :: b :: rest) (ha : a ≠ 0) (hb : b ≠ 0) (hab : a ≠ b) :
    solvable (initializeGame s).order = true := by
  unfold initializeGame
  split
  · rename_i h
    have hodd : ¬Even (getInversionCount (a :: b :: rest)) := by
      rw [← solvable_iff_even, ← hs]
      simpa using h
    show solvable (swap s.order 0 1) = true
    rw [hs, swap_zero_one, solvable_iff_even]
    rcases getInversionCount_swap_front a b rest ha hb hab with h1 | h1
    · rw [h1]
      exact Nat.even_add_one.mpr hodd
    · rw [← h1, Nat.even_add_one, not_not] at hodd
      exact hodd
  · rename_i h
    simpa using h

/-! ## Shape of the boards the program starts with -/

theorem front_of_perm (l target : List Nat) (h : l.Perm target) (hn : target.Nodup)
    (hz : 0 ∉ target) (a b : Nat) (rest : List Nat) (hl : l = a :: b :: rest) :
    a ≠ 0 ∧ b ≠ 0 ∧ a ≠ b := by
  subst hl
  have hnd : (a :: b :: rest).Nodup := h.nodup_iff.mpr hn
  have ha : a ∈ target := h.subset (by simp)
  have hb : b ∈ target := h.subset (by simp)
  refine ⟨?_, ?_, ?_⟩
  · rintro rfl
    exact hz ha
  · rintro rfl
    exact hz hb
  · rintro rfl
    simp at hnd

theorem initialOrder_front (shuffled : List Nat) (h : shuffled.Perm tiles) :
    ∃ a b rest, initialOrder shuffled = a :: b :: rest ∧ a ≠ 0 ∧ b ≠ 0 ∧ a ≠ b := by
  have hlen : shuffled.length = 15 := h.length_eq
  match shuffled, hlen, h with
  | a :: b :: rest, _, h =>
    exact ⟨a, b, rest ++ [0], by simp [initialOrder],
      front_of_perm _ tiles h (by decide) (by decide) a b rest rfl⟩

/-! ## Array reads and `swap` -/

theorem jsGet_eq_some_iff (array : List Nat) (index : Int) (v : Nat) :
    jsGet array index = some v
      ↔ 0 ≤ index ∧ ∃ h : index.toNat < array.length, array[index.toNat] = v := by
  unfold jsGet
  split
  · rename_i h0
    simp [List.getElem?_eq_some, h0]
  · rename_i h0
    simp [h0]

theorem truthy_jsGet_iff (array : List Nat) (index : Int) :
    truthy (jsGet array index) = true
      ↔ 0 ≤ index ∧ ∃ h : index.toNat < array.length, array[index.toNat] ≠ 0 := by
  cases hget : jsGet array index with
  | none =>
    simp only [truthy, Bool.false_eq_true, false_iff]
    rintro ⟨h0, hlt, _⟩
    have : jsGet array index = some array[index.toNat] :=
      (jsGet_eq_some_iff _ _ _).mpr ⟨h0, hlt, rfl⟩
    rw [hget] at this
    exact Option.noConfusion this
  | some v =>
    obtain ⟨h0, hlt, hv⟩ := (jsGet_eq_some_iff _ _ _).mp hget
    simp [truthy, h0, hlt, hv]

theorem swap_length (l : List Nat) (i j : Nat) : (swap l i j).length = l.length := by
  simp [swap]

theorem swap_getElem? (l : List Nat) (i j k : Nat) (hi : i < l.length) (hj : j < l.length) :
    (swap l i j)[k]? = if k = j then l[i]? else if k = i then l[j]? else l[k]? := by
  simp only [swap, List.getElem?_set, List.length_set, List.getD_eq_getElem _ _ hi,
    List.getD_eq_getElem _ _ hj, List.getElem?_eq_getElem hi, List.getElem?_eq_getElem hj]
  by_cases h1 : j = k
  · subst h1
    simp [hj]
  · by_cases h2 : i = k
    · subst h2
      simp [h1, hi, Ne.symm h1]
    · simp [h1, h2, Ne.symm h1, Ne.symm h2]

theorem swap_perm (l : List Nat) (i j : Nat) (hi : i < l.length) (hj : j < l.length) :
    (swap l i j).Perm l := by
  rw [List.perm_iff_count]
  intro b
  have hj2 : j < (l.set i l[j]).length := by simpa using hj
  have hset : (l.set i l[j])[j] = l[j] := by
    rw [List.getElem_set]
    split <;> rfl
  simp only [swap, List.getD_eq_getElem _ _ hi, List.getD_eq_getElem _ _ hj]
  rw [List.count_set _ _ _ _ (by simpa using hj), List.count_set _ _ _ _ hi, hset]
  have hle : (if l[i] == b then 1 else 0) ≤ l.count b := by
    split
    · rename_i h
      have hb : l[i] = b := by simpa using h
      exact List.count_pos_iff.mpr (hb ▸ List.getElem_mem hi)
    · exact Nat.zero_le _
  omega

theorem perm_range_facts (order : List Nat) (h : order.Perm (List.range 16)) :
    order.length = 16 ∧ order.Nodup :=
  ⟨by simpa using h.length_eq, h.nodup_iff.mpr (List.nodup_range 16)⟩

/-! ## `move` -/

theorem move_fst_eq_true_iff (s : State) (step : Int) :
    (move s step).1 = true
      ↔ truthy (jsGet s.order (s.hole + step)) = true
        ∧ ¬((step = moves_left ∨ step = moves_right)
            ∧ floorDiv4 s.hole ≠ floorDiv4 (s.hole + step)) := by
  unfold move
  by_cases h1 : truthy (jsGet s.order (s.hole + step)) = true
  · by_cases h2 : (step = moves_left ∨ step = moves_right)
        ∧ floorDiv4 s.hole ≠ floorDiv4 (s.hole + step)
    · simp [h1, h2]
    · simp only [h1, Bool.not_true, Bool.false_eq_true, if_false, h2, true_and, not_false_eq_true]
  · simp [h1]

theorem move_of_false (s : State) (step : Int) (h : (move s step).1 = false) :
    (move s step).2 = s := by
  unfold move at h ⊢
  by_cases h1 : truthy (jsGet s.order (s.hole + step)) = true
  · by_cases h2 : (step = moves_left ∨ step = moves_right)
        ∧ floorDiv4 s.hole ≠ floorDiv4 (s.hole + step)
    · simp [h1, h2]
    · simp only [h1, Bool.not_true, Bool.false_eq_true, if_false, h2] at h
      exact absurd h (by decide)
  · simp [h1]

theorem move_of_true (s : State) (step : Int) (h : (move s step).1 = true) :
    (move s step).2 = { order := swap s.order (s.hole + step).toNat s.hole.toNat,
                        hole := s.hole + step,
                        moveCounter := s.moveCounter + 1 } := by
  unfold move at h ⊢
  by_cases h1 : truthy (jsGet s.order (s.hole + step)) = true
  · by_cases h2 : (step = moves_left ∨ step = moves_right)
        ∧ floorDiv4 s.hole ≠ floorDiv4 (s.hole + step)
    · simp [h1, h2] at h
    · simp only [h1, Bool.not_true, Bool.false_eq_true, if_false, h2]
  · simp [h1] at h

theorem tile_of_ne_hole (s : State) (hwf : WellFormed s) (index : Int)
    (hne : index ≠ s.hole) :
    truthy (jsGet s.order index) = true ↔ 0 ≤ index ∧ index ≤ 15 := by
  obtain ⟨hperm, hhole⟩ := hwf
  obtain ⟨hlen, hnd⟩ := perm_range_facts s.order hperm
  obtain ⟨hh0, hhlt, hhv⟩ := (jsGet_eq_some_iff _ _ _).mp hhole
  rw [truthy_jsGet_iff]
  constructor
  · rintro ⟨h0, hlt, _⟩
    omega
  · rintro ⟨h0, h15⟩
    have hlt : index.toNat < s.order.length := by omega
    refine ⟨h0, hlt, ?_⟩
    intro hz
    have heq : s.order[index.toNat] = s.order[s.hole.toNat] := by rw [hz, hhv]
    have := (hnd.getElem_inj_iff).mp heq
    omega

/-! ## Invariants of the reachable states -/

theorem move_wellFormed (s : State) (step : Int) (hwf : WellFormed s) :
    WellFormed (move s step).2 := by
  cases hres : (move s step).1 with
  | false => rw [move_of_false s step hres]; exact hwf
  | true =>
    rw [move_of_true s step hres]
    obtain ⟨hperm, hhole⟩ := hwf
    obtain ⟨hh0, hhlt, hhv⟩ := (jsGet_eq_some_iff _ _ _).mp hhole
    obtain ⟨hi0, hilt, _⟩ :=
      (truthy_jsGet_iff _ _).mp ((move_fst_eq_true_iff s step).mp hres).1
    refine ⟨(swap_perm _ _ _ hilt hhlt).trans hperm, ?_⟩
    show jsGet (swap s.order (s.hole + step).toNat s.hole.toNat) (s.hole + step) = some 0
    unfold jsGet
    rw [if_pos hi0, swap_getElem? _ _ _ _ hilt hhlt]
    split
    · rename_i heq
      rw [heq, List.getElem?_eq_getElem hhlt, hhv]
    · rw [if_pos rfl, List.getElem?_eq_getElem hhlt, hhv]

theorem runMoves_wellFormed (steps : List Int) (s : State) (hwf : WellFormed s) :
    WellFormed (runMoves s steps) := by
  induction steps generalizing s with
  | nil => exact hwf
  | cons step rest ih => exact ih (move s step).2 (move_wellFormed s step hwf)

theorem initialState_wellFormed (shuffled : List Nat) (h : shuffled.Perm tiles) :
    WellFormed (initialState shuffled) := by
  have hlen : shuffled.length = 15 := h.length_eq
  refine ⟨(h.append_right [0]).trans (by decide), ?_⟩
  show jsGet (shuffled ++ [0]) 15 = some 0
  unfold jsGet
  rw [if_pos (by decide), show (15 : Int).toNat = 15 from rfl,
    List.getElem?_append_right (by omega)]
  simp [hlen]

theorem initializeGame_hole (s : State) : (initializeGame s).hole = s.hole := by
  unfold initializeGame
  split <;> rfl

theorem initializeGame_moveCounter (s : State) :
    (initializeGame s).moveCounter = s.moveCounter := by
  unfold initializeGame
  split <;> rfl

theorem initializeGame_order (s : State) :
    (initializeGame s).order = if solvable s.order = true then s.order else swap s.order 0 1 := by
  unfold initializeGame
  cases solvable s.order <;> rfl

theorem initializeGame_wellFormed (s : State) (hwf : WellFormed s) (hh : 2 ≤ s.hole) :
    WellFormed (initializeGame s) := by
  obtain ⟨hperm, hhole⟩ := hwf
  obtain ⟨hlen, _⟩ := perm_range_facts s.order hperm
  obtain ⟨hh0, hhlt, hhv⟩ := (jsGet_eq_some_iff _ _ _).mp hhole
  unfold WellFormed
  rw [initializeGame_hole, initializeGame_order]
  split
  · exact ⟨hperm, hhole⟩
  · refine ⟨(swap_perm _ 0 1 (by omega) (by omega)).trans hperm, ?_⟩
    unfold jsGet
    rw [if_pos hh0, swap_getElem? _ _ _ _ (by omega) (by omega),
      if_neg (by omega), if_neg (by omega), List.getElem?_eq_getElem hhlt, hhv]

theorem reachable_wellFormed (shuffled : List Nat) (h : shuffled.Perm tiles)
    (steps : List Int) :
    WellFormed (runMoves (initializeGame (initialState shuffled)) steps) :=
  runMoves_wellFormed steps _
    (initializeGame_wellFormed _ (initialState_wellFormed shuffled h)
      (show (2 : Int) ≤ 15 by decide))

theorem move_fst_iff_of_wellFormed (s : State) (step : Int) (hwf : WellFormed s)
    (hstep : isStep step) :
    (move s step).1 = true
      ↔ 0 ≤ s.hole + step ∧ s.hole + step ≤ 15
        ∧ ((step = moves_left ∨ step = moves_right)
            → floorDiv4 s.hole = floorDiv4 (s.hole + step)) := by
  have hne : s.hole + step ≠ s.hole := by
    unfold isStep moves_up moves_left moves_down moves_right at hstep
    omega
  rw [move_fst_eq_true_iff, tile_of_ne_hole s hwf _ hne]
  constructor
  · rintro ⟨⟨h0, h15⟩, hrow⟩
    refine ⟨h0, h15, fun hlr => ?_⟩
    by_contra hcon
    exact hrow ⟨hlr, hcon⟩
  · rintro ⟨h0, h15, hrow⟩
    exact ⟨⟨h0, h15⟩, fun hcon => hcon.2 (hrow hcon.1)⟩

theorem isFinished_iff_getD (s : State) :
    isFinished s = true
      ↔ ∀ i : Nat, i < s.order.length → s.order.getD i 0 = 0 ∨ s.order.getD i 0 = i + 1 := by
  unfold isFinished
  rw [Bool.not_eq_true', Bool.eq_false_iff, Ne, List.any_eq_true]
  constructor
  · intro h i hi
    by_contra hcon
    apply h
    refine ⟨(i, s.order[i]), List.mk_mem_enum_iff_getElem?.mpr (List.getElem?_eq_getElem hi), ?_⟩
    rw [List.getD_eq_getElem _ _ hi] at hcon
    simp only [misplaced, Bool.and_eq_true, decide_eq_true_eq]
    omega
  · rintro h ⟨⟨i, v⟩, hmem, hmis⟩
    obtain ⟨hi, hv⟩ := List.getElem?_eq_some.mp (List.mk_mem_enum_iff_getElem?.mp hmem)
    have := h i hi
    rw [List.getD_eq_getElem _ _ hi, hv] at this
    simp only [misplaced, Bool.and_eq_true, decide_eq_true_eq] at hmis
    omega

/-! ## Counting accepted moves -/

theorem move_moveCounter (s : State) (step : Int) :
    (move s step).2.moveCounter
      = s.moveCounter + (if (move s step).1 = true then 1 else 0) := by
  cases hres : (move s step).1 with
  | false => rw [move_of_false s step hres]; simp
  | true => rw [move_of_true s step hres]; simp

theorem runMoves_cons (s : State) (step : Int) (rest : List Int) :
    runMoves s (step :: rest) = runMoves (move s step).2 rest := rfl

theorem runMoves_moveCounter (steps : List Int) (s : State) :
    (runMoves s steps).moveCounter = s.moveCounter + acceptedMoves s steps := by
  induction steps generalizing s with
  | nil => rfl
  | cons step rest ih =>
    rw [runMoves_cons, ih, move_moveCounter, acceptedMoves]
    omega

/-! ## `swap` is symmetric and an involution -/

theorem swap_comm (l : List Nat) (i j : Nat) : swap l i j = swap l j i := by
  by_cases h : i = j
  · rw [h]
  · unfold swap
    exact List.set_comm _ _ _ h

theorem swap_swap (l : List Nat) (i j : Nat) (hi : i < l.length) (hj : j < l.length) :
    swap (swap l i j) j i = l := by
  apply List.ext_getElem?
  intro k
  rw [swap_getElem? _ _ _ _ (by rw [swap_length]; exact hj) (by rw [swap_length]; exact hi),
    swap_getElem? _ _ _ _ hi hj, swap_getElem? _ _ _ _ hi hj, swap_getElem? _ _ _ _ hi hj]
  by_cases h1 : k = i
  · subst h1
    by_cases h2 : j = k
    · subst h2; simp
    · simp [h2]
  · by_cases h2 : k = j
    · subst h2
      simp [h1, Ne.symm h1]
    · simp [h1, h2]

/-! ## The finished board of a permutation -/

theorem solvedOrder_getD (i : Nat) (hi : i < 16) :
    solvedOrder.getD i 0 = if i = 15 then 0 else i + 1 := by
  revert i
  decide

theorem order_eq_solved_of_finished (s : State) (hperm : s.order.Perm (List.range 16))
    (hfin : isFinished s = true) : s.order = solvedOrder := by
  obtain ⟨hlen, hnd⟩ := perm_range_facts s.order hperm
  rw [isFinished_iff_getD, hlen] at hfin
  have hlast : s.order[15] = 0 := by
    have hmem : s.order[15] ∈ List.range 16 := hperm.subset (List.getElem_mem (by omega))
    have hlt := List.mem_range.mp hmem
    have h15 := hfin 15 (by omega)
    rw [List.getD_eq_getElem _ _ (by omega)] at h15
    omega
  apply List.ext_getElem?
  intro i
  by_cases hi : i < 16
  · have hi2 : i < s.order.length := by omega
    have hi3 : i < solvedOrder.length := by
      have : solvedOrder.length = 16 := by decide
      omega
    rw [List.getElem?_eq_getElem hi2, List.getElem?_eq_getElem hi3,
      ← List.getD_eq_getElem _ 0 hi3, solvedOrder_getD i hi]
    congr 1
    by_cases h15 : i = 15
    · subst h15
      rw [if_pos rfl]
      exact hlast
    · rw [if_neg h15]
      have hne : s.order[i] ≠ 0 := by
        intro hz
        have := (hnd.getElem_inj_iff).mp (hz.trans hlast.symm)
        omega
      have := hfin i hi
      rw [List.getD_eq_getElem _ _ hi2] at this
      omega
  · have hl2 : solvedOrder.length = 16 := by decide
    rw [List.getElem?_eq_none (by omega), List.getElem?_eq_none (by omega)]

/-! ## Inversions under the swap of a move -/

theorem inversionPair_zero_left (b : Nat) : inversionPair 0 b = 0 := by
  simp [inversionPair]

theorem inversionPair_zero_right (a : Nat) : inversionPair a 0 = 0 := by
  simp [inversionPair]

theorem inversionPair_add_reverse (a b : Nat) (ha : a ≠ 0) (hb : b ≠ 0) (hab : a ≠ b) :
    inversionPair a b + inversionPair b a = 1 := by
  unfold inversionPair
  rcases Nat.lt_or_gt_of_ne hab with h | h
  · rw [if_neg (by omega), if_pos ⟨hb, ha, h⟩]
  · rw [if_pos ⟨ha, hb, h⟩, if_neg (by omega)]

theorem inversionsWith_cons_pair (a b : Nat) (rest : List Nat) :
    inversionsWith a (b :: rest) = inversionsWith a rest + inversionPair a b :=
  inversionsWith_cons a b rest

theorem inversionsWith_perm (a : Nat) (l1 l2 : List Nat) (h : l1.Perm l2) :
    inversionsWith a l1 = inversionsWith a l2 :=
  h.countP_eq _

theorem swap_cons_succ (a : Nat) (l : List Nat) (i j : Nat) :
    swap (a :: l) (i + 1) (j + 1) = a :: swap l i j := by
  simp [swap]

theorem getInversionCount_cons_swap (a : Nat) (l : List Nat) (i j : Nat)
    (hi : i < l.length) (hj : j < l.length) :
    getInversionCount (a :: swap l i j)
      = inversionsWith a l + getInversionCount (swap l i j) := by
  rw [getInversionCount_cons, inversionsWith_perm a _ _ (swap_perm l i j hi hj)]

/-- Exchanging the empty value with a neighbour in the array keeps the inversion count. -/
theorem getInversionCount_swap_adjacent (i : Nat) (l : List Nat) (h : i + 1 < l.length)
    (hz : l.getD i 0 = 0 ∨ l.getD (i + 1) 0 = 0) :
    getInversionCount (swap l i (i + 1)) = getInversionCount l := by
  induction i generalizing l with
  | zero =>
    match l, h, hz with
    | x :: y :: rest, _, hz =>
      rw [swap_zero_one]
      exact getInversionCount_swap_front_zero x y rest (by simpa using hz)
  | succ i ih =>
    match l, h, hz with
    | a :: l2, h, hz =>
      have h2 : i + 1 < l2.length := by simpa using h
      rw [swap_cons_succ, getInversionCount_cons_swap a l2 i (i + 1) (by omega) h2,
        getInversionCount_cons, ih l2 h2 (by simpa using hz)]

/-- Exchanging the empty value with the entry four places away, over three
tiles, changes the inversion count by an odd amount. -/
theorem getInversionCount_swap_over_three (i : Nat) (l : List Nat) (h : i + 4 < l.length)
    (hnd : l.Nodup) (hz : l.getD i 0 = 0 ∨ l.getD (i + 4) 0 = 0) :
    (getInversionCount (swap l i (i + 4)) + getInversionCount l) % 2 = 1 := by
  induction i generalizing l with
  | zero =>
    match l, h, hnd, hz with
    | x :: m1 :: m2 :: m3 :: y :: rest, _, hnd, hz =>
      have hswap : swap (x :: m1 :: m2 :: m3 :: y :: rest) 0 (0 + 4)
          = y :: m1 :: m2 :: m3 :: x :: rest := by
        simp [swap]
      rw [hswap]
      simp only [getInversionCount_cons, inversionsWith_cons_pair]
      simp only [List.nodup_cons, List.mem_cons, not_or] at hnd
      obtain ⟨⟨hx1, hx2, hx3, hxy, _⟩, ⟨_, _, h1y, _⟩, ⟨_, h2y, _⟩, ⟨h3y, _⟩, _⟩ := hnd
      have hz2 : x = 0 ∨ y = 0 := by simpa using hz
      rcases hz2 with hx | hy
      · subst hx
        have p1 := inversionPair_add_reverse y m1 (by omega) (by omega) (by omega)
        have p2 := inversionPair_add_reverse y m2 (by omega) (by omega) (by omega)
        have p3 := inversionPair_add_reverse y m3 (by omega) (by omega) (by omega)
        simp only [inversionPair_zero_left, inversionPair_zero_right]
        have hw : inversionsWith 0 rest = 0 := by simp [inversionsWith]
        omega
      · subst hy
        have p1 := inversionPair_add_reverse x m1 (by omega) (by omega) (by omega)
        have p2 := inversionPair_add_reverse x m2 (by omega) (by omega) (by omega)
        have p3 := inversionPair_add_reverse x m3 (by omega) (by omega) (by omega)
        simp only [inversionPair_zero_left, inversionPair_zero_right]
        have hw : inversionsWith 0 rest = 0 := by simp [inversionsWith]
        omega
  | succ i ih =>
    match l, h, hnd, hz with
    | a :: l2, h, hnd, hz =>
      have h2 : i + 4 < l2.length := by
        rw [List.length_cons] at h
        omega
      have hnd2 : l2.Nodup := (List.nodup_cons.mp hnd).2
      have hz2 : l2.getD i 0 = 0 ∨ l2.getD (i + 4) 0 = 0 := by
        rw [show i + 1 + 4 = (i + 4) + 1 by omega] at hz
        simpa using hz
      have hidx : i + 1 + 4 = (i + 4) + 1 := by omega
      rw [hidx, swap_cons_succ, getInversionCount_cons_swap a l2 i (i + 4) (by omega) h2,
        getInversionCount_cons]
      have := ih l2 h2 hnd2 hz2
      omega

theorem move_inversion_effect (s : State) (step : Int) (hwf : WellFormed s)
    (hstep : isStep step) (htrue : (move s step).1 = true) :
    ((step = moves_left ∨ step = moves_right)
        → getInversionCount (move s step).2.order = getInversionCount s.order)
      ∧ ((step = moves_up ∨ step = moves_down)
        → (getInversionCount (move s step).2.order + getInversionCount s.order) % 2 = 1) := by
  obtain ⟨hlen, hnd⟩ := perm_range_facts s.order hwf.1
  obtain ⟨hh0, hhlt, hhv⟩ := (jsGet_eq_some_iff _ _ _).mp hwf.2
  obtain ⟨hi0, hi15, _⟩ := (move_fst_iff_of_wellFormed s step hwf hstep).mp htrue
  have hzero : s.order.getD s.hole.toNat 0 = 0 := by
    rw [List.getD_eq_getElem _ _ hhlt]
    exact hhv
  rw [move_of_true s step htrue]
  show ((step = moves_left ∨ step = moves_right)
        → getInversionCount (swap s.order (s.hole + step).toNat s.hole.toNat)
            = getInversionCount s.order)
      ∧ ((step = moves_up ∨ step = moves_down)
        → (getInversionCount (swap s.order (s.hole + step).toNat s.hole.toNat)
            + getInversionCount s.order) % 2 = 1)
  unfold moves_left moves_right moves_up moves_down
  constructor
  · rintro (hl | hr)
    · have e : s.hole.toNat = (s.hole + step).toNat + 1 := by omega
      rw [e]
      apply getInversionCount_swap_adjacent _ _ (by omega)
      right
      rw [← e]
      exact hzero
    · have e : (s.hole + step).toNat = s.hole.toNat + 1 := by omega
      rw [e, swap_comm]
      exact getInversionCount_swap_adjacent _ _ (by omega) (Or.inl hzero)
  · rintro (hu | hd)
    · have e : s.hole.toNat = (s.hole + step).toNat + 4 := by omega
      rw [e]
      apply getInversionCount_swap_over_three _ _ (by omega) hnd
      right
      rw [← e]
      exact hzero
    · have e : (s.hole + step).toNat = s.hole.toNat + 4 := by omega
      rw [e, swap_comm]
      exact getInversionCount_swap_over_three _ _ (by omega) hnd (Or.inl hzero)

theorem move_inversionRowSum_parity (s : State) (step : Int) (hwf : WellFormed s)
    (hstep : isStep step) (htrue : (move s step).1 = true) :
    inversionRowSum (move s step).2 % 2 = inversionRowSum s % 2 := by
  obtain ⟨hside, hvert⟩ := move_inversion_effect s step hwf hstep htrue
  obtain ⟨_, _, hrow⟩ := (move_fst_iff_of_wellFormed s step hwf hstep).mp htrue
  have hhole : (move s step).2.hole = s.hole + step := by
    rw [move_of_true s step htrue]
  unfold inversionRowSum
  rw [hhole]
  rcases hstep with hu | hl | hd | hr
  · have h1 := hvert (Or.inl hu)
    unfold moves_up at hu
    unfold floorDiv4
    omega
  · have h1 := hside (Or.inl hl)
    have h2 := hrow (Or.inl hl)
    rw [h1, h2]
  · have h1 := hvert (Or.inr hd)
    unfold moves_down at hd
    unfold floorDiv4
    omega
  · have h1 := hside (Or.inr hr)
    have h2 := hrow (Or.inr hr)
    rw [h1, h2]

theorem runMoves_inversionRowSum_odd (steps : List Int) (s : State) (hwf : WellFormed s)
    (hsteps : ∀ step ∈ steps, isStep step) (hodd : inversionRowSum s % 2 = 1) :
    inversionRowSum (runMoves s steps) % 2 = 1 := by
  induction steps generalizing s with
  | nil => exact hodd
  | cons step rest ih =>
    rw [runMoves_cons]
    apply ih _ (move_wellFormed s step hwf)
      (fun st hst => hsteps st (List.mem_cons_of_mem _ hst))
    cases hres : (move s step).1 with
    | false => rw [move_of_false s step hres]; exact hodd
    | true =>
      rw [move_inversionRowSum_parity s step hwf (hsteps step (List.mem_cons_self _ _)) hres]
      exact hodd

theorem initializeGame_inversionRowSum_odd (shuffled : List Nat) (h : shuffled.Perm tiles) :
    inversionRowSum (initializeGame (initialState shuffled)) % 2 = 1 := by
  obtain ⟨a, b, rest, hs, ha, hb, hab⟩ := initialOrder_front shuffled h
  have hsolv := solvable_initializeGame_front (initialState shuffled) a b rest hs ha hb hab
  rw [solvable_iff_even, Nat.even_iff] at hsolv
  unfold inversionRowSum
  rw [initializeGame_hole]
  show ((getInversionCount (initializeGame (initialState shuffled)).order : Int)
      + floorDiv4 15) % 2 = 1
  unfold floorDiv4
  omega

/-! ## Main results -/

/-- C1: for every board the program can start with (a rearrangement of `1..15`
followed by `0`), after the corrective step of `initialize`, which applies
`swap(0, 1)` exactly when `solvable(order)` is false, `solvable(order)` is true. -/
theorem initialize_makes_initial_board_solvable (shuffled : List Nat)
    (h : shuffled.Perm tiles) :
    (initializeGame (initialState shuffled)).order
        = (if solvable (initialState shuffled).order = true then (initialState shuffled).order
           else swap (initialState shuffled).order 0 1)
      ∧ solvable (initializeGame (initialState shuffled)).order = true := by
  refine ⟨initializeGame_order _, ?_⟩
  obtain ⟨a, b, rest, hs, ha, hb, hab⟩ := initialOrder_front shuffled h
  exact solvable_initializeGame_front (initialState shuffled) a b rest hs ha hb hab

theorem initialize_makes_initial_board_solvable_witness :
    [2, 1, 3, 4, 5, 6, 7, 8, 9, 10, 11, 12, 13, 14, 15].Perm tiles
      ∧ solvable (initialState [2, 1, 3, 4, 5, 6, 7, 8, 9, 10, 11, 12, 13, 14, 15]).order = false
      ∧ solvable (initializeGame
          (initialState [2, 1, 3, 4, 5, 6, 7, 8, 9, 10, 11, 12, 13, 14, 15])).order = true :=
  ⟨by decide, by decide,
    (initialize_makes_initial_board_solvable
      [2, 1, 3, 4, 5, 6, 7, 8, 9, 10, 11, 12, 13, 14, 15] (by decide)).2⟩

/-- C2, as stated, fails: the board `[0, 2, 1, 3, ..., 15]` is a permutation of
`0..15` with one inversion, and the swap of indices 0 and 1 moves the empty value
only, so the board is still not solvable after the corrective step. -/
theorem corrective_swap_fails_with_empty_in_front :
    [0, 2, 1, 3, 4, 5, 6, 7, 8, 9, 10, 11, 12, 13, 14, 15].Perm (List.range 16)
      ∧ jsGet [0, 2, 1, 3, 4, 5, 6, 7, 8, 9, 10, 11, 12, 13, 14, 15] 0 = some 0
      ∧ solvable (initializeGame
          ⟨[0, 2, 1, 3, 4, 5, 6, 7, 8, 9, 10, 11, 12, 13, 14, 15], 0, 0⟩).order = false := by
  decide

/-- C2, amended: for every board that is a permutation of `0..15`, after the
step of `initialize` that swaps the values at indices 0 and 1 exactly when
`solvable(board)` is false, `solvable(board)` is true if and only if the board
was solvable before the step or the empty value `0` is at neither index 0 nor
index 1; in particular it is true whenever `0` is at an index from 2 to 15. -/
theorem corrective_swap_solvable_iff (s : State) (hperm : s.order.Perm (List.range 16)) :
    solvable (initializeGame s).order = true
      ↔ solvable s.order = true ∨ (jsGet s.order 0 ≠ some 0 ∧ jsGet s.order 1 ≠ some 0) := by
  obtain ⟨hlen, hnd⟩ := perm_range_facts s.order hperm
  match hs : s.order, hlen, hnd with
  | a :: b :: rest, _, hnd =>
    have hab : a ≠ b := by
      rintro rfl
      simp at hnd
    have hget : (jsGet (a :: b :: rest) 0 ≠ some 0 ∧ jsGet (a :: b :: rest) 1 ≠ some 0)
        ↔ a ≠ 0 ∧ b ≠ 0 := by
      simp [jsGet]
    rw [hget]
    constructor
    · intro hsolv
      by_cases hbefore : solvable (a :: b :: rest) = true
      · exact Or.inl hbefore
      · right
        by_contra hz
        have hzero : a = 0 ∨ b = 0 := by omega
        rw [initializeGame_order, hs, if_neg hbefore, swap_zero_one, solvable_iff_even,
          getInversionCount_swap_front_zero a b rest hzero, ← solvable_iff_even] at hsolv
        exact hbefore hsolv
    · rintro (hbefore | ⟨ha, hb⟩)
      · rw [initializeGame_order, hs, if_pos hbefore]
        exact hbefore
      · exact solvable_initializeGame_front s a b rest hs ha hb hab

theorem corrective_swap_solvable_iff_witness :
    [2, 1, 3, 4, 5, 6, 7, 8, 9, 10, 11, 12, 0, 13, 14, 15].Perm (List.range 16)
      ∧ (solvable (initializeGame
            ⟨[2, 1, 3, 4, 5, 6, 7, 8, 9, 10, 11, 12, 0, 13, 14, 15], 12, 0⟩).order = true
          ↔ solvable [2, 1, 3, 4, 5, 6, 7, 8, 9, 10, 11, 12, 0, 13, 14, 15] = true
            ∨ (jsGet [2, 1, 3, 4, 5, 6, 7, 8, 9, 10, 11, 12, 0, 13, 14, 15] 0 ≠ some 0
              ∧ jsGet [2, 1, 3, 4, 5, 6, 7, 8, 9, 10, 11, 12, 0, 13, 14, 15] 1 ≠ some 0)) :=
  ⟨by decide,
    corrective_swap_solvable_iff
      ⟨[2, 1, 3, 4, 5, 6, 7, 8, 9, 10, 11, 12, 0, 13, 14, 15], 12, 0⟩ (by decide)⟩

/-- C3: in a state whose `order` is a permutation of `0..15` with
`order[hole] = 0`, for each of the four steps `move(step)` returns true if and
only if `hole + step` lies in `0..15` and, for a left or right step,
`floor(hole / 4) = floor((hole + step) / 4)`; in particular up and left are
rejected at `hole = 0` and right is rejected at `hole = 3`. -/
theorem move_returns_true_iff (s : State) (step : Int) (hwf : WellFormed s)
    (hstep : isStep step) :
    ((move s step).1 = true
        ↔ 0 ≤ s.hole + step ∧ s.hole + step ≤ 15
          ∧ ((step = moves_left ∨ step = moves_right)
              → s.hole / 4 = (s.hole + step) / 4))
      ∧ (s.hole = 0 → (move s moves_up).1 = false ∧ (move s moves_left).1 = false)
      ∧ (s.hole = 3 → (move s moves_right).1 = false) := by
  have hiff := move_fst_iff_of_wellFormed s step hwf hstep
  unfold floorDiv4 at hiff
  refine ⟨hiff, ?_, ?_⟩
  · intro h0
    constructor
    · rw [Bool.eq_false_iff, Ne,
        move_fst_iff_of_wellFormed s moves_up hwf (Or.inl rfl), h0]
      decide
    · rw [Bool.eq_false_iff, Ne,
        move_fst_iff_of_wellFormed s moves_left hwf (Or.inr (Or.inl rfl)), h0]
      decide
  · intro h3
    rw [Bool.eq_false_iff, Ne,
      move_fst_iff_of_wellFormed s moves_right hwf (Or.inr (Or.inr (Or.inr rfl))), h3]
    decide

theorem move_returns_true_iff_witness :
    WellFormed ⟨[1, 2, 3, 0, 4, 5, 6, 7, 8, 9, 10, 11, 12, 13, 14, 15], 3, 0⟩
      ∧ isStep moves_right ∧ isStep moves_left
      ∧ (move ⟨[1, 2, 3, 0, 4, 5, 6, 7, 8, 9, 10, 11, 12, 13, 14, 15], 3, 0⟩ moves_right).1
          = false
      ∧ ((3 : Int) / 4 ≠ (3 + moves_right) / 4)
      ∧ (move ⟨[1, 2, 3, 0, 4, 5, 6, 7, 8, 9, 10, 11, 12, 13, 14, 15], 3, 0⟩ moves_left).1
          = true
      ∧ ((3 : Int) / 4 = (3 + moves_left) / 4)
      ∧ (move ⟨[1, 2, 3, 0, 4, 5, 6, 7, 8, 9, 10, 11, 12, 13, 14, 15], 3, 0⟩ moves_left).2.order
          = [1, 2, 0, 3, 4, 5, 6, 7, 8, 9, 10, 11, 12, 13, 14, 15] :=
  ⟨by decide, by decide, by decide,
    (move_returns_true_iff ⟨[1, 2, 3, 0, 4, 5, 6, 7, 8, 9, 10, 11, 12, 13, 14, 15], 3, 0⟩
      moves_right (by decide) (by decide)).2.2 rfl,
    by decide,
    (move_returns_true_iff ⟨[1, 2, 3, 0, 4, 5, 6, 7, 8, 9, 10, 11, 12, 13, 14, 15], 3, 0⟩
      moves_left (by decide) (by decide)).1.mpr ⟨by decide, by decide, fun _ => by decide⟩,
    by decide, by decide⟩

/-- C4: for every state and each of the four steps, whenever `move(step)`
returns false the state is unchanged: `order`, `hole` and `moveCounter` all
equal their values before the call. -/
theorem move_rejected_leaves_state (s : State) (step : Int) (_hstep : isStep step)
    (hfalse : (move s step).1 = false) :
    (move s step).2.order = s.order ∧ (move s step).2.hole = s.hole
      ∧ (move s step).2.moveCounter = s.moveCounter := by
  rw [move_of_false s step hfalse]
  exact ⟨rfl, rfl, rfl⟩

theorem move_rejected_leaves_state_witness :
    isStep moves_left
      ∧ (move ⟨[0, 1, 2, 3, 4, 5, 6, 7, 8, 9, 10, 11, 12, 13, 14, 15], 0, 7⟩ moves_left).1 = false
      ∧ (move ⟨[0, 1, 2, 3, 4, 5, 6, 7, 8, 9, 10, 11, 12, 13, 14, 15], 0, 7⟩ moves_left).2.order
          = [0, 1, 2, 3, 4, 5, 6, 7, 8, 9, 10, 11, 12, 13, 14, 15]
      ∧ (move ⟨[0, 1, 2, 3, 4, 5, 6, 7, 8, 9, 10, 11, 12, 13, 14, 15], 0, 7⟩ moves_left).2.hole
          = 0
      ∧ (move ⟨[0, 1, 2, 3, 4, 5, 6, 7, 8, 9, 10, 11, 12, 13, 14, 15], 0, 7⟩
          moves_left).2.moveCounter = 7 :=
  ⟨by decide, by decide,
    move_rejected_leaves_state ⟨[0, 1, 2, 3, 4, 5, 6, 7, 8, 9, 10, 11, 12, 13, 14, 15], 0, 7⟩
      moves_left (by decide) (by decide)⟩

/-- C5: in a state whose `order` is a permutation of `0..15` with
`order[hole] = 0`, for each of the four steps, whenever `move(step)` returns true
the new `order` is the old one with the values at indices `hole` and
`hole + step` exchanged and every other index unchanged, the new `hole` is the
old `hole + step`, and the new `moveCounter` is the old one plus 1. -/
theorem move_accepted_effect (s : State) (step : Int) (hwf : WellFormed s)
    (_hstep : isStep step) (htrue : (move s step).1 = true) :
    (∀ i : Int, jsGet (move s step).2.order i
        = if i = s.hole then jsGet s.order (s.hole + step)
          else if i = s.hole + step then jsGet s.order s.hole
          else jsGet s.order i)
      ∧ (move s step).2.order.length = s.order.length
      ∧ (move s step).2.hole = s.hole + step
      ∧ (move s step).2.moveCounter = s.moveCounter + 1 := by
  rw [move_of_true s step htrue]
  obtain ⟨hperm, hhole⟩ := hwf
  obtain ⟨hh0, hhlt, hhv⟩ := (jsGet_eq_some_iff _ _ _).mp hhole
  obtain ⟨hi0, hilt, _⟩ :=
    (truthy_jsGet_iff _ _).mp ((move_fst_eq_true_iff s step).mp htrue).1
  refine ⟨?_, swap_length _ _ _, rfl, rfl⟩
  intro i
  show jsGet (swap s.order (s.hole + step).toNat s.hole.toNat) i = _
  unfold jsGet
  by_cases hneg : 0 ≤ i
  · rw [if_pos hneg, if_pos hi0, if_pos hh0, swap_getElem? _ _ _ _ hilt hhlt]
    have e1 : i.toNat = s.hole.toNat ↔ i = s.hole := by omega
    have e2 : i.toNat = (s.hole + step).toNat ↔ i = s.hole + step := by omega
    simp only [e1, e2, if_pos hneg]
  · rw [if_neg hneg, if_neg (by omega), if_neg (by omega), if_neg hneg]

theorem move_accepted_effect_witness :
    WellFormed solvedState ∧ isStep moves_left ∧ (move solvedState moves_left).1 = true
      ∧ (move solvedState moves_left).2.order
          = [1, 2, 3, 4, 5, 6, 7, 8, 9, 10, 11, 12, 13, 14, 0, 15]
      ∧ (∀ i : Int, jsGet (move solvedState moves_left).2.order i
          = if i = solvedState.hole then jsGet solvedState.order (solvedState.hole + moves_left)
            else if i = solvedState.hole + moves_left then
              jsGet solvedState.order solvedState.hole
            else jsGet solvedState.order i)
      ∧ (move solvedState moves_left).2.hole = 14
      ∧ (move solvedState moves_left).2.moveCounter = 1 :=
  ⟨by decide, by decide, by decide, by decide,
    (move_accepted_effect solvedState moves_left (by decide) (by decide) (by decide)).1,
    by decide, by decide⟩

/-- C6: permutation invariant. The initial `order` (a rearrangement of `1..15`
followed by `0`) contains each value `0..15` exactly once, and so does `order`
after the corrective step of `initialize`, after every sequence of `move` calls
with steps among the four offsets, and after one more such call, accepted or
rejected: it holds in every reachable state. -/
theorem permutation_invariant (shuffled : List Nat) (h : shuffled.Perm tiles)
    (steps : List Int) (_hsteps : ∀ step ∈ steps, isStep step)
    (next : Int) (_hnext : isStep next) :
    (initialState shuffled).order.Perm (List.range 16)
      ∧ (initializeGame (initialState shuffled)).order.Perm (List.range 16)
      ∧ (runMoves (initializeGame (initialState shuffled)) steps).order.Perm (List.range 16)
      ∧ (move (runMoves (initializeGame (initialState shuffled)) steps) next).2.order.Perm
          (List.range 16) :=
  ⟨(initialState_wellFormed shuffled h).1,
    (reachable_wellFormed shuffled h []).1,
    (reachable_wellFormed shuffled h steps).1,
    (move_wellFormed _ next (reachable_wellFormed shuffled h steps)).1⟩

theorem permutation_invariant_witness :
    [3, 1, 2, 4, 5, 6, 7, 8, 9, 10, 11, 12, 13, 14, 15].Perm tiles
      ∧ (∀ step ∈ [moves_up, moves_right, moves_left, moves_left], isStep step)
      ∧ isStep moves_down
      ∧ (runMoves (initializeGame
            (initialState [3, 1, 2, 4, 5, 6, 7, 8, 9, 10, 11, 12, 13, 14, 15]))
          [moves_up, moves_right, moves_left, moves_left]).order.Perm (List.range 16)
      ∧ (move (runMoves (initializeGame
            (initialState [3, 1, 2, 4, 5, 6, 7, 8, 9, 10, 11, 12, 13, 14, 15]))
          [moves_up, moves_right, moves_left, moves_left]) moves_down).2.order.Perm
          (List.range 16) :=
  ⟨by decide, by decide, by decide,
    (permutation_invariant [3, 1, 2, 4, 5, 6, 7, 8, 9, 10, 11, 12, 13, 14, 15] (by decide)
      [moves_up, moves_right, moves_left, moves_left] (by decide) moves_down (by decide)).2.2⟩

/-- C7: empty-index invariant. In every state reached from the initial state
through the corrective step of `initialize` and any sequence of `move` calls
with steps among the four offsets, `hole` lies in `0..15`, `order[hole] = 0`, and
no other index holds `0`: `hole` is the position of the value `0` in `order`. -/
theorem hole_invariant (shuffled : List Nat) (h : shuffled.Perm tiles)
    (steps : List Int) (_hsteps : ∀ step ∈ steps, isStep step) :
    0 ≤ (runMoves (initializeGame (initialState shuffled)) steps).hole
      ∧ (runMoves (initializeGame (initialState shuffled)) steps).hole ≤ 15
      ∧ jsGet (runMoves (initializeGame (initialState shuffled)) steps).order
          (runMoves (initializeGame (initialState shuffled)) steps).hole = some 0
      ∧ ∀ i : Int, jsGet (runMoves (initializeGame (initialState shuffled)) steps).order i
          = some 0 → i = (runMoves (initializeGame (initialState shuffled)) steps).hole := by
  have hwf := reachable_wellFormed shuffled h steps
  generalize runMoves (initializeGame (initialState shuffled)) steps = s at hwf
  obtain ⟨hlen, hnd⟩ := perm_range_facts s.order hwf.1
  obtain ⟨hh0, hhlt, hhv⟩ := (jsGet_eq_some_iff _ _ _).mp hwf.2
  refine ⟨hh0, by omega, hwf.2, ?_⟩
  intro i hi
  obtain ⟨hi0, hilt, hiv⟩ := (jsGet_eq_some_iff _ _ _).mp hi
  have := (hnd.getElem_inj_iff).mp (hiv.trans hhv.symm)
  omega

set_option maxRecDepth 20000 in
theorem hole_invariant_witness :
    [3, 1, 2, 4, 5, 6, 7, 8, 9, 10, 11, 12, 13, 14, 15].Perm tiles
      ∧ (∀ step ∈ [moves_up, moves_right, moves_left, moves_up], isStep step)
      ∧ (runMoves (initializeGame
            (initialState [3, 1, 2, 4, 5, 6, 7, 8, 9, 10, 11, 12, 13, 14, 15]))
          [moves_up, moves_right, moves_left, moves_up]).hole = 6
      ∧ jsGet (runMoves (initializeGame
            (initialState [3, 1, 2, 4, 5, 6, 7, 8, 9, 10, 11, 12, 13, 14, 15]))
          [moves_up, moves_right, moves_left, moves_up]).order
          (runMoves (initializeGame
            (initialState [3, 1, 2, 4, 5, 6, 7, 8, 9, 10, 11, 12, 13, 14, 15]))
          [moves_up, moves_right, moves_left, moves_up]).hole = some 0 :=
  ⟨by decide, by decide, by decide,
    (hole_invariant [3, 1, 2, 4, 5, 6, 7, 8, 9, 10, 11, 12, 13, 14, 15] (by decide)
      [moves_up, moves_right, moves_left, moves_up] (by decide)).2.2.1⟩

/-- C8: for every array of non-negative integers, `getInversionCount(array)` is
the number of index pairs `(i, j)` with `i < j`, `array[i] ≠ 0`, `array[j] ≠ 0`
and `array[i] > array[j]`, and `solvable(array)` is true if and only if that
number is even. -/
theorem getInversionCount_counts_pairs (array : List Nat) :
    getInversionCount array = inversionPairs array
      ∧ (solvable array = true ↔ Even (inversionPairs array)) := by
  refine ⟨getInversionCount_eq_inversionPairs array, ?_⟩
  rw [← getInversionCount_eq_inversionPairs, solvable_iff_even]

/-- C9: for every board of 16 values, `isFinished()` returns true if and only if
for every index `i` in `0..15` the value at `i` is `0` or equals `i + 1`; it is
true for `[1, 2, ..., 15, 0]` and false for `[2, 1, 3, ..., 15, 0]`. -/
theorem isFinished_iff (s : State) (hlen : s.order.length = 16) :
    (isFinished s = true
        ↔ ∀ i : Nat, i < 16 → s.order.getD i 0 = 0 ∨ s.order.getD i 0 = i + 1)
      ∧ isFinished ⟨[1, 2, 3, 4, 5, 6, 7, 8, 9, 10, 11, 12, 13, 14, 15, 0], 15, 0⟩ = true
      ∧ isFinished ⟨[2, 1, 3, 4, 5, 6, 7, 8, 9, 10, 11, 12, 13, 14, 15, 0], 15, 0⟩ = false := by
  refine ⟨?_, by decide, by decide⟩
  rw [isFinished_iff_getD, hlen]

theorem isFinished_iff_witness :
    solvedState.order.length = 16
      ∧ isFinished solvedState = true
      ∧ ∀ i : Nat, i < 16 → solvedState.order.getD i 0 = 0
          ∨ solvedState.order.getD i 0 = i + 1 :=
  ⟨by decide, by decide, (isFinished_iff solvedState (by decide)).1.mp (by decide)⟩

/-- C10, as stated, fails: from the solved state `move(up)` does not yield the
board `[1, 2, 3, 4, 5, 6, 7, 8, 9, 10, 0, 12, 13, 14, 15, 11]`. Index 11 of the
solved board holds the value 12, not 11, and the claimed board has `0` at
index 10. -/
theorem move_up_from_solved_not_claimed_board :
    (move solvedState moves_up).2.order
      ≠ [1, 2, 3, 4, 5, 6, 7, 8, 9, 10, 0, 12, 13, 14, 15, 11] := by
  decide

/-- C10, amended: from the solved state `order = [1, 2, ..., 15, 0]` with
`hole = 15` and `moveCounter = 0`, `move(up)` (step `-4`) returns true, swaps
indices 15 and 11, sets `hole` to 11, sets `moveCounter` to 1, and yields the
board `[1, 2, 3, 4, 5, 6, 7, 8, 9, 10, 11, 0, 13, 14, 15, 12]`: the value 12
moved to index 15 and `0` moved to index 11. -/
theorem move_up_from_solved :
    solvedState = ⟨[1, 2, 3, 4, 5, 6, 7, 8, 9, 10, 11, 12, 13, 14, 15, 0], 15, 0⟩
      ∧ moves_up = -4
      ∧ (move solvedState moves_up).1 = true
      ∧ (move solvedState moves_up).2.order = swap solvedState.order 15 11
      ∧ (move solvedState moves_up).2.hole = 11
      ∧ (move solvedState moves_up).2.moveCounter = 1
      ∧ (move solvedState moves_up).2.order
          = [1, 2, 3, 4, 5, 6, 7, 8, 9, 10, 11, 0, 13, 14, 15, 12]
      ∧ jsGet (move solvedState moves_up).2.order 15 = some 12
      ∧ jsGet (move solvedState moves_up).2.order 11 = some 0 := by
  decide

/-- C11: for every finite sequence of `move` calls with steps among the four
offsets, started from a state with `moveCounter = 0`, `order` a permutation of
`0..15` and `order[hole] = 0`, the final `moveCounter` equals the number of calls
of the sequence that returned true; one more call that is rejected leaves it
as it is. -/
theorem moveCounter_counts_accepted_moves (s : State) (steps : List Int)
    (_hwf : WellFormed s) (hzero : s.moveCounter = 0)
    (_hsteps : ∀ step ∈ steps, isStep step) (next : Int) (_hnext : isStep next) :
    (runMoves s steps).moveCounter = acceptedMoves s steps
      ∧ ((move (runMoves s steps) next).1 = false
          → (move (runMoves s steps) next).2.moveCounter = (runMoves s steps).moveCounter) := by
  refine ⟨?_, fun hfalse => ?_⟩
  · rw [runMoves_moveCounter, hzero, Nat.zero_add]
  · rw [move_of_false _ _ hfalse]

set_option maxRecDepth 20000 in
theorem moveCounter_counts_accepted_moves_witness :
    WellFormed solvedState ∧ solvedState.moveCounter = 0
      ∧ (∀ step ∈ [moves_right, moves_up, moves_left, moves_down, moves_down], isStep step)
      ∧ isStep moves_down
      ∧ acceptedMoves solvedState [moves_right, moves_up, moves_left, moves_down, moves_down] = 3
      ∧ (runMoves solvedState
          [moves_right, moves_up, moves_left, moves_down, moves_down]).moveCounter
          = acceptedMoves solvedState
              [moves_right, moves_up, moves_left, moves_down, moves_down] :=
  ⟨by decide, by decide, by decide, by decide, by decide,
    (moveCounter_counts_accepted_moves solvedState
      [moves_right, moves_up, moves_left, moves_down, moves_down]
      (by decide) (by decide) (by decide) moves_down (by decide)).1⟩

/-- C12: for every board whose values at indices 0 and 1 are distinct and both
non-zero, exchanging those two values flips the result of `solvable`, the
inversion count changing by exactly one; `solvable([1, 2, 3, ..., 15, 0])` is true
with 0 inversions and `solvable([2, 1, 3, ..., 15, 0])` is false with 1
inversion. -/
theorem swap_front_flips_solvable (array : List Nat) (a b : Nat)
    (h0 : jsGet array 0 = some a) (h1 : jsGet array 1 = some b)
    (ha : a ≠ 0) (hb : b ≠ 0) (hab : a ≠ b) :
    solvable (swap array 0 1) = !solvable array
      ∧ (getInversionCount (swap array 0 1) = getInversionCount array + 1
          ∨ getInversionCount (swap array 0 1) + 1 = getInversionCount array)
      ∧ solvable [1, 2, 3, 4, 5, 6, 7, 8, 9, 10, 11, 12, 13, 14, 15, 0] = true
      ∧ getInversionCount [1, 2, 3, 4, 5, 6, 7, 8, 9, 10, 11, 12, 13, 14, 15, 0] = 0
      ∧ swap [1, 2, 3, 4, 5, 6, 7, 8, 9, 10, 11, 12, 13, 14, 15, 0] 0 1
          = [2, 1, 3, 4, 5, 6, 7, 8, 9, 10, 11, 12, 13, 14, 15, 0]
      ∧ solvable [2, 1, 3, 4, 5, 6, 7, 8, 9, 10, 11, 12, 13, 14, 15, 0] = false
      ∧ getInversionCount [2, 1, 3, 4, 5, 6, 7, 8, 9, 10, 11, 12, 13, 14, 15, 0] = 1 := by
  refine ⟨?_, ?_, by decide, by decide, by decide, by decide, by decide⟩
  all_goals
    match array, h0, h1 with
    | x :: y :: rest, h0, h1 =>
      have hx : x = a := by simpa [jsGet] using h0
      have hy : y = b := by simpa [jsGet] using h1
      subst hx hy
      rw [swap_zero_one]
      have hcount := getInversionCount_swap_front x y rest ha hb hab
      first
        | exact hcount
        | rw [Bool.eq_not, Ne]
          intro heq
          have e1 := solvable_iff_even (y :: x :: rest)
          have e2 := solvable_iff_even (x :: y :: rest)
          rw [heq, Nat.even_iff] at e1
          rw [Nat.even_iff] at e2
          have e3 := e1.symm.trans e2
          omega

theorem swap_front_flips_solvable_witness :
    jsGet [3, 1, 2, 0, 4] 0 = some 3 ∧ jsGet [3, 1, 2, 0, 4] 1 = some 1
      ∧ getInversionCount [3, 1, 2, 0, 4] = 2
      ∧ getInversionCount (swap [3, 1, 2, 0, 4] 0 1) = 1
      ∧ solvable (swap [3, 1, 2, 0, 4] 0 1) = !solvable [3, 1, 2, 0, 4] :=
  ⟨by decide, by decide, by decide, by decide,
    (swap_front_flips_solvable [3, 1, 2, 0, 4] 3 1 (by decide) (by decide)
      (by decide) (by decide) (by decide)).1⟩

/-- C13: for every state, `gameMove` maps key codes to moves with the directions
inverted: key 37 (left) acts as `move(right = +1)`, key 38 (up) as
`move(down = +4)`, key 39 (right) as `move(left = -1)`, key 40 (down) as
`move(up = -4)`; for every other key code `gameMove` leaves `order`, `hole` and
`moveCounter` unchanged. -/
theorem gameMove_inverts_directions (s : State) (keyCode : Nat) :
    BUTTON_LEFT = 37 ∧ BUTTON_UP = 38 ∧ BUTTON_RIGHT = 39 ∧ BUTTON_DOWN = 40
      ∧ moves_right = 1 ∧ moves_down = 4 ∧ moves_left = -1 ∧ moves_up = -4
      ∧ gameMove s 37 = (move s moves_right).2
      ∧ gameMove s 38 = (move s moves_down).2
      ∧ gameMove s 39 = (move s moves_left).2
      ∧ gameMove s 40 = (move s moves_up).2
      ∧ (keyCode ≠ 37 ∧ keyCode ≠ 38 ∧ keyCode ≠ 39 ∧ keyCode ≠ 40
          → (gameMove s keyCode).order = s.order ∧ (gameMove s keyCode).hole = s.hole
            ∧ (gameMove s keyCode).moveCounter = s.moveCounter) := by
  refine ⟨rfl, rfl, rfl, rfl, rfl, rfl, rfl, rfl, rfl, rfl, rfl, rfl, ?_⟩
  rintro ⟨h37, h38, h39, h40⟩
  unfold gameMove BUTTON_LEFT BUTTON_UP BUTTON_RIGHT BUTTON_DOWN
  rw [if_neg h37, if_neg h38, if_neg h39, if_neg h40]
  exact ⟨rfl, rfl, rfl⟩

theorem gameMove_inverts_directions_witness :
    (gameMove solvedState 40).hole = 11 ∧ (gameMove solvedState 38).hole = 15
      ∧ (gameMove solvedState 39).hole = 14
      ∧ ((13 : Nat) ≠ 37 ∧ (13 : Nat) ≠ 38 ∧ (13 : Nat) ≠ 39 ∧ (13 : Nat) ≠ 40)
      ∧ (gameMove solvedState 13).order = solvedState.order
      ∧ (gameMove solvedState 13).hole = solvedState.hole
      ∧ (gameMove solvedState 13).moveCounter = solvedState.moveCounter :=
  ⟨by decide, by decide, by decide, by decide,
    (gameMove_inverts_directions solvedState 13).2.2.2.2.2.2.2.2.2.2.2.2 (by decide)⟩

/-- C14: for every board that contains each value `0..15` exactly once,
`isFinished()` is true if and only if the board is exactly `[1, 2, ..., 15, 0]`;
no such board with the empty value at an index other than 15 is reported as
finished. -/
theorem isFinished_iff_solved_of_perm (s : State)
    (hperm : s.order.Perm (List.range 16)) :
    (isFinished s = true
        ↔ s.order = [1, 2, 3, 4, 5, 6, 7, 8, 9, 10, 11, 12, 13, 14, 15, 0])
      ∧ (∀ i : Int, i ≠ 15 → jsGet s.order i = some 0 → isFinished s = false) := by
  have hiff : isFinished s = true
      ↔ s.order = [1, 2, 3, 4, 5, 6, 7, 8, 9, 10, 11, 12, 13, 14, 15, 0] := by
    constructor
    · exact order_eq_solved_of_finished s hperm
    · intro h
      unfold isFinished
      rw [h]
      decide
  refine ⟨hiff, ?_⟩
  intro i hi hget
  rw [Bool.eq_false_iff, Ne, hiff]
  intro h
  rw [h] at hget
  obtain ⟨h0, hlt, hv⟩ := (jsGet_eq_some_iff _ _ _).mp hget
  have hlt2 : i.toNat < 16 := by simpa using hlt
  have hidx : ∀ k : Nat, k < 16 →
      [1, 2, 3, 4, 5, 6, 7, 8, 9, 10, 11, 12, 13, 14, 15, 0].getD k 0 = 0 → k = 15 := by
    decide
  have := hidx i.toNat hlt2 (by rw [List.getD_eq_getElem _ _ hlt]; exact hv)
  omega

theorem isFinished_iff_solved_of_perm_witness :
    [1, 2, 3, 4, 5, 6, 7, 0, 9, 10, 11, 12, 13, 14, 15, 8].Perm (List.range 16)
      ∧ (7 : Int) ≠ 15
      ∧ jsGet [1, 2, 3, 4, 5, 6, 7, 0, 9, 10, 11, 12, 13, 14, 15, 8] 7 = some 0
      ∧ isFinished ⟨[1, 2, 3, 4, 5, 6, 7, 0, 9, 10, 11, 12, 13, 14, 15, 8], 7, 0⟩ = false :=
  ⟨by decide, by decide, by decide,
    (isFinished_iff_solved_of_perm ⟨[1, 2, 3, 4, 5, 6, 7, 0, 9, 10, 11, 12, 13, 14, 15, 8], 7, 0⟩
      (by decide)).2 7 (by decide) (by decide)⟩

/-- C15: in a state whose `order` is a permutation of `0..15` with
`order[hole] = 0`, for each of the four steps, if `move(step)` returns true then
the parity of `getInversionCount(order) + floor(hole / 4)` is the same after the
move as before it: a left or right move leaves the inversion count unchanged, an
up or down move changes it by an odd amount. Consequently in every state
reachable after `initialize` this sum is odd, as it is in the solved board
`[1, ..., 15, 0]` with `hole = 15`. -/
theorem inversion_row_parity_invariant (s : State) (step : Int) (hwf : WellFormed s)
    (hstep : isStep step) (htrue : (move s step).1 = true)
    (shuffled : List Nat) (hperm : shuffled.Perm tiles)
    (steps : List Int) (hsteps : ∀ st ∈ steps, isStep st) :
    inversionRowSum (move s step).2 % 2 = inversionRowSum s % 2
      ∧ ((step = moves_left ∨ step = moves_right)
          → getInversionCount (move s step).2.order = getInversionCount s.order)
      ∧ ((step = moves_up ∨ step = moves_down)
          → ((getInversionCount (move s step).2.order : Int)
              - (getInversionCount s.order : Int)) % 2 = 1)
      ∧ inversionRowSum (runMoves (initializeGame (initialState shuffled)) steps) % 2 = 1
      ∧ inversionRowSum solvedState % 2 = 1 := by
  obtain ⟨hside, hvert⟩ := move_inversion_effect s step hwf hstep htrue
  refine ⟨move_inversionRowSum_parity s step hwf hstep htrue, hside, ?_, ?_, by decide⟩
  · intro hud
    have := hvert hud
    omega
  · exact runMoves_inversionRowSum_odd steps _
      (initializeGame_wellFormed _ (initialState_wellFormed shuffled hperm)
        (show (2 : Int) ≤ 15 by decide))
      hsteps (initializeGame_inversionRowSum_odd shuffled hperm)

set_option maxRecDepth 20000 in
theorem inversion_row_parity_invariant_witness :
    WellFormed solvedState ∧ isStep moves_up ∧ (move solvedState moves_up).1 = true
      ∧ [2, 1, 3, 4, 5, 6, 7, 8, 9, 10, 11, 12, 13, 14, 15].Perm tiles
      ∧ (∀ st ∈ [moves_up, moves_left, moves_down], isStep st)
      ∧ getInversionCount solvedState.order = 0
      ∧ getInversionCount (move solvedState moves_up).2.order = 3
      ∧ inversionRowSum (move solvedState moves_up).2 = 5
      ∧ inversionRowSum (move solvedState moves_up).2 % 2 = inversionRowSum solvedState % 2
      ∧ inversionRowSum (runMoves
          (initializeGame (initialState [2, 1, 3, 4, 5, 6, 7, 8, 9, 10, 11, 12, 13, 14, 15]))
          [moves_up, moves_left, moves_down]) % 2 = 1 :=
  ⟨by decide, by decide, by decide, by decide, by decide, by decide, by decide, by decide,
    (inversion_row_parity_invariant solvedState moves_up (by decide) (by decide) (by decide)
      [2, 1, 3, 4, 5, 6, 7, 8, 9, 10, 11, 12, 13, 14, 15] (by decide)
      [moves_up, moves_left, moves_down] (by decide)).1,
    (inversion_row_parity_invariant solvedState moves_up (by decide) (by decide) (by decide)
      [2, 1, 3, 4, 5, 6, 7, 8, 9, 10, 11, 12, 13, 14, 15] (by decide)
      [moves_up, moves_left, moves_down] (by decide)).2.2.2.1⟩

/-- C16: in a state whose `order` is a permutation of `0..15` with
`order[hole] = 0`, for each of the four steps `s`, if `move(s)` returns true then
an immediately following `move(-s)` also returns true and restores `order` and
`hole` to their values before the first move, leaving `moveCounter` increased by
exactly 2. -/
theorem move_then_reverse_restores (s : State) (step : Int) (hwf : WellFormed s)
    (hstep : isStep step) (htrue : (move s step).1 = true) :
    (move (move s step).2 (-step)).1 = true
      ∧ (move (move s step).2 (-step)).2.order = s.order
      ∧ (move (move s step).2 (-step)).2.hole = s.hole
      ∧ (move (move s step).2 (-step)).2.moveCounter = s.moveCounter + 2 := by
  have hwf2 := move_wellFormed s step hwf
  have hback : isStep (-step) := by
    unfold isStep moves_up moves_left moves_down moves_right at hstep ⊢
    omega
  obtain ⟨hlen, _⟩ := perm_range_facts s.order hwf.1
  obtain ⟨hh0, hhlt, _⟩ := (jsGet_eq_some_iff _ _ _).mp hwf.2
  obtain ⟨hi0, hi15, hrow⟩ := (move_fst_iff_of_wellFormed s step hwf hstep).mp htrue
  have hilt : (s.hole + step).toNat < s.order.length := by omega
  have hfirst := move_of_true s step htrue
  have hsecond : (move (move s step).2 (-step)).1 = true := by
    rw [move_fst_iff_of_wellFormed _ _ hwf2 hback, hfirst]
    show 0 ≤ s.hole + step + -step ∧ s.hole + step + -step ≤ 15
      ∧ ((-step = moves_left ∨ -step = moves_right)
          → floorDiv4 (s.hole + step) = floorDiv4 (s.hole + step + -step))
    refine ⟨by omega, by omega, fun hlr => ?_⟩
    have hlr2 : step = moves_left ∨ step = moves_right := by
      unfold moves_left moves_right at hlr ⊢
      omega
    rw [show s.hole + step + -step = s.hole by omega]
    exact (hrow hlr2).symm
  refine ⟨hsecond, ?_⟩
  rw [move_of_true _ _ hsecond, hfirst]
  show swap (swap s.order (s.hole + step).toNat s.hole.toNat) (s.hole + step + -step).toNat
        (s.hole + step).toNat = s.order
      ∧ s.hole + step + -step = s.hole ∧ s.moveCounter + 1 + 1 = s.moveCounter + 2
  rw [show s.hole + step + -step = s.hole by omega]
  exact ⟨swap_swap _ _ _ hilt hhlt, rfl, rfl⟩

theorem move_then_reverse_restores_witness :
    WellFormed solvedState ∧ isStep moves_up ∧ (move solvedState moves_up).1 = true
      ∧ (move (move solvedState moves_up).2 (-moves_up)).1 = true
      ∧ (move (move solvedState moves_up).2 (-moves_up)).2.order = solvedState.order
      ∧ (move (move solvedState moves_up).2 (-moves_up)).2.hole = solvedState.hole
      ∧ (move (move solvedState moves_up).2 (-moves_up)).2.moveCounter
          = solvedState.moveCounter + 2 :=
  ⟨by decide, by decide, by decide,
    move_then_reverse_restores solvedState moves_up (by decide) (by decide) (by decide)⟩

end FifteenGame
